import Mathlib

/-!
Verification development for the pycco documentation generator
(file src/pycco/main.py of the repository under review).

Strings of the Python source are modelled as lists of characters
(List Char); the model covers the ASCII fragment of Python's string
semantics (whitespace sets, lower-casing) that the program manipulates.
Fallible Python code (functions that can raise) is modelled with Option
or Except results.  All definitions are executable and structurally
recursive; scanners that are not structurally recursive in Python are
given a fuel argument initialised with the length of the scanned list,
which is always sufficient because each step consumes at least one
character.
-/

/-- Python whitespace characters as used by str.strip and the regex
class for whitespace, restricted to ASCII. -/
def pyIsSpace (c : Char) : Bool :=
  c == ' ' || c == '\t' || c == '\n' || c == '\r' || c == '\x0b' || c == '\x0c'

/-- Model of Python str.lstrip with no argument (ASCII fragment). -/
def lstrip (l : List Char) : List Char := l.dropWhile pyIsSpace

/-- Model of Python str.rstrip with no argument (ASCII fragment). -/
def rstrip (l : List Char) : List Char := (l.reverse.dropWhile pyIsSpace).reverse

/-- Model of Python str.strip with no argument (ASCII fragment). -/
def strip (l : List Char) : List Char := rstrip (lstrip l)

/-- Does the list start with the given pattern (Python str.startswith)? -/
def listStartsWith : List Char → List Char → Bool
  | [], _ => true
  | _ :: _, [] => false
  | p :: ps, c :: cs => p == c && listStartsWith ps cs

/-- Does the list end with the given pattern (Python str.endswith)? -/
def listEndsWith (pat l : List Char) : Bool :=
  listStartsWith pat.reverse l.reverse

/-- Length of the longest prefix whose characters satisfy the predicate. -/
def countLeading (p : Char → Bool) : List Char → Nat
  | [] => 0
  | c :: rest => if p c then countLeading p rest + 1 else 0

/-- Model of Python str.split with a one-character separator: the result is
never empty and empty pieces are kept. -/
def splitOnChar (sep : Char) : List Char → List (List Char)
  | [] => [[]]
  | c :: rest =>
    if c == sep then [] :: splitOnChar sep rest
    else
      match splitOnChar sep rest with
      | l :: ls => (c :: l) :: ls
      | [] => [[c]]

/-- Model of Python str.join over a list of pieces. -/
def intercalateL (sep : List Char) : List (List Char) → List Char
  | [] => []
  | [x] => x
  | x :: y :: rest => x ++ sep ++ intercalateL sep (y :: rest)

/-- The piece of a string after its last newline,
Python s.split(chr(10))[-1]. -/
def pyLastSplit (l : List Char) : List Char :=
  (l.reverse.takeWhile (fun c => c != '\n')).reverse

/-- Fuel-driven worker for replaceAll; the fuel is initialised with the
length of the scanned list, which always suffices. -/
def replaceAllGo (pat : List Char) : Nat → List Char → List Char
  | _, [] => []
  | 0, l => l
  | fuel + 1, c :: rest =>
    if !pat.isEmpty && listStartsWith pat (c :: rest) then
      replaceAllGo pat fuel (rest.drop (pat.length - 1))
    else c :: replaceAllGo pat fuel rest

/-- Model of Python str.replace(pat, two-quote empty string): removes every
non-overlapping occurrence of pat, scanning left to right.  An empty
pattern leaves the string unchanged, as Python does when the replacement
is empty. -/
def replaceAll (pat l : List Char) : List Char := replaceAllGo pat l.length l

/-- Does the pattern occur as a contiguous subsequence? -/
def containsSeq (pat : List Char) : List Char → Bool
  | [] => listStartsWith pat []
  | c :: rest => listStartsWith pat (c :: rest) || containsSeq pat rest

/-- Model of posixpath.basename: the part after the last slash. -/
def basename (l : List Char) : List Char :=
  (l.reverse.takeWhile (fun c => c != '/')).reverse

/-- The backtick character, written via its code point. -/
def backtickChar : Char := Char.ofNat 96

/-- ASCII fragment of Python str.lower applied to one character. -/
def lowerChar (c : Char) : Char :=
  if 65 ≤ c.toNat ∧ c.toNat ≤ 90 then Char.ofNat (c.toNat + 32) else c

/-- A comment/code section produced by the segmenter: the fields
docs_text and code_text of the dictionaries built by parse.save. -/
structure Section where
  docs_text : List Char
  code_text : List Char
deriving DecidableEq

/-- A language descriptor from the pycco languages table: its canonical
name, its line-comment symbol, and the optional pair of block-comment
delimiters (multistart, multiend). -/
structure Lang where
  name : List Char
  symbol : List Char
  multi : Option (List Char × List Char)
deriving DecidableEq

/-- The registered language descriptors, in the insertion order of the
pycco languages dictionary, keyed by file extension. -/
def languagesKeyed : List (List Char × Lang) :=
  [ ((".coffee".data), ⟨("coffee-script".data), ("#".data), some (("###".data), ("###".data))⟩),
    ((".pl".data), ⟨("perl".data), ("#".data), none⟩),
    ((".sql".data), ⟨("sql".data), ("--".data), none⟩),
    ((".c".data), ⟨("c".data), ("//".data), some (("/*".data), ("*/".data))⟩),
    ((".cpp".data), ⟨("cpp".data), ("//".data), none⟩),
    ((".js".data), ⟨("javascript".data), ("//".data), some (("/*".data), ("*/".data))⟩),
    ((".rb".data), ⟨("ruby".data), ("#".data), some (("=begin".data), ("=end".data))⟩),
    ((".py".data), ⟨("python".data), ("#".data), some (("\"\"\"".data), ("\"\"\"".data))⟩),
    ((".scm".data), ⟨("scheme".data), (";;".data), some (("#|".data), ("|#".data))⟩),
    ((".lua".data), ⟨("lua".data), ("--".data), some (("--[[".data), ("--]]".data))⟩),
    ((".erl".data), ⟨("erlang".data), ("%%".data), none⟩),
    ((".tcl".data), ⟨("tcl".data), ("#".data), none⟩),
    ((".hs".data), ⟨("haskell".data), ("--".data), some (("\x7b-".data), ("-\x7d".data))⟩) ]

/-- The registered descriptors, languages.values() in table order. -/
def languagesList : List Lang := languagesKeyed.map (fun p => p.2)

/-- The python descriptor, languages of key py. -/
def python : Lang :=
  ⟨("python".data), ("#".data), some (("\"\"\"".data), ("\"\"\"".data))⟩

/-- The perl descriptor, languages of key pl; it has no block markers. -/
def perl : Lang := ⟨("perl".data), ("#".data), none⟩

/-- The c descriptor, languages of key c. -/
def cLang : Lang := ⟨("c".data), ("//".data), some (("/*".data), ("*/".data))⟩

/-- State threaded through parse for one line scan: the saved sections,
the has_code flag, the two accumulators, the multi_line and multi_string
flags, and the length of the recorded indentation prefix. -/
structure PState where
  sections : List Section
  hasCode : Bool
  docsText : List Char
  codeText : List Char
  multiLine : Bool
  multiString : Bool
  indentLevel : Nat
deriving DecidableEq

/-- The initial state of parse: empty accumulators, all flags off. -/
def initState : PState := ⟨[], false, [], [], false, false, 0⟩

/-- parse.save: append a section unless both fields are empty. -/
def save (sections : List Section) (docs code : List Char) : List Section :=
  if docs ≠ [] ∨ code ≠ [] then sections ++ [⟨docs, code⟩] else sections

/-- The any-delimiter test of parse: the stripped line starts with, or the
right-stripped line ends with, one of the two block-comment delimiters. -/
def isDelimLine (ms me line : List Char) : Bool :=
  (listStartsWith ms (lstrip line) || listEndsWith ms (rstrip line)) ||
  (listStartsWith me (lstrip line) || listEndsWith me (rstrip line))

/-- The whole guard of the first branch of parse: both delimiters present
and non-empty, and the line hits the delimiter test. -/
def delimGuard (lang : Lang) (line : List Char) : Bool :=
  match lang.multi with
  | some (ms, me) => !ms.isEmpty && !me.isEmpty && isDelimLine ms me line
  | none => false

/-- Match of the comment_matcher regex built from the language symbol:
optional leading whitespace followed by the symbol. -/
def isCommentLine (sym line : List Char) : Bool :=
  listStartsWith sym (lstrip line)

/-- Substitution of the comment_matcher by the empty string: drop the
leading whitespace, the symbol, and at most one further whitespace
character; a line that does not match is left unchanged. -/
def stripCommentMarker (sym line : List Char) : List Char :=
  if isCommentLine sym line then
    match (lstrip line).drop sym.length with
    | c :: rest => if pyIsSpace c then rest else c :: rest
    | [] => []
  else line

/-- Does the left-stripped line start with one of the structural keywords
class, def or the at-sign decorator marker? -/
def isStructural (line : List Char) : Bool :=
  listStartsWith ("class ".data) (lstrip line) ||
  listStartsWith ("def ".data) (lstrip line) ||
  listStartsWith ("@".data) (lstrip line)

/-- The process_as_code tail of the parse loop: possibly close the current
section before a structural keyword, then append the line to the code
accumulator and set has_code. -/
def processAsCode (st : PState) (line : List Char) : PState :=
  let st1 :=
    if st.codeText ≠ [] ∧ isStructural line = true ∧
        listStartsWith ("@".data) (lstrip st.codeText) = false then
      { st with sections := save st.sections st.docsText st.codeText,
                codeText := [], docsText := [] }
    else st
  { st1 with hasCode := true, codeText := st1.codeText ++ line ++ ['\n'] }

/-- The block-comment-delimiter branch of parse: toggle the multi_line
flag, undo the toggle for one-line block comments, then either treat the
line as code (flipping multi_string) or strip the delimiters into the
comment accumulator, possibly closing the current section. -/
def processDelim (ms me : List Char) (st : PState) (line : List Char) : PState :=
  let ml1 := !st.multiLine
  let ml2 :=
    if ml1 = true ∧ listEndsWith me (strip line) = true ∧
        me.length < (strip line).length then false
    else ml1
  if (listStartsWith ms (strip line) = false ∧ ml2 = false) ∨ st.multiString = true then
    let st1 :=
      if st.multiString = true then { st with multiLine := false, multiString := false }
      else { st with multiLine := ml2, multiString := true }
    processAsCode st1 line
  else
    let lineR := replaceAll me (replaceAll ms line)
    let docs1 := st.docsText ++ strip lineR ++ ['\n']
    let ind := countLeading pyIsSpace lineR
    if st.hasCode = true ∧ strip docs1 ≠ [] then
      { st with sections := save st.sections docs1 st.codeText.dropLast,
                codeText := pyLastSplit st.codeText,
                hasCode := false, docsText := [],
                multiLine := ml2, indentLevel := ind }
    else
      { st with docsText := docs1, multiLine := ml2, indentLevel := ind }

/-- The non-delimiter branches of the parse loop: absorb the line into an
open block comment, start or extend a line-comment section, or process
the line as code. -/
def processRest (sym : List Char) (st : PState) (line : List Char) : PState :=
  if st.multiLine = true then
    let docs1 :=
      if listStartsWith (List.replicate st.indentLevel ' ') line = true then
        st.docsText ++ line.drop st.indentLevel ++ ['\n']
      else st.docsText ++ line ++ ['\n']
    { st with docsText := docs1 }
  else if isCommentLine sym line = true then
    let st1 :=
      if st.hasCode = true then
        { st with sections := save st.sections st.docsText st.codeText,
                  hasCode := false, docsText := [], codeText := [] }
      else st
    { st1 with docsText := st1.docsText ++ stripCommentMarker sym line ++ ['\n'] }
  else processAsCode st line

/-- One iteration of the parse loop over one line. -/
def processLine (lang : Lang) (st : PState) (line : List Char) : PState :=
  match lang.multi with
  | some (ms, me) =>
    if !ms.isEmpty && !me.isEmpty && isDelimLine ms me line then
      processDelim ms me st line
    else processRest lang.symbol st line
  | none => processRest lang.symbol st line

/-- Search for the source-encoding-declaration pattern: the word coding,
a colon or equals sign, optional whitespace, then at least one character
that is alphanumeric, underscore, dash or dot, anywhere in the line. -/
def hasCodingDecl : List Char → Bool
  | [] => false
  | c :: rest =>
    (listStartsWith ("coding".data) (c :: rest) &&
      (match (c :: rest).drop 6 with
       | d :: rest2 =>
         (d == ':' || d == '=') &&
         (match rest2.dropWhile pyIsSpace with
          | e :: _ => e.isAlphanum || e == '_' || e == '-' || e == '.'
          | [] => false)
       | [] => false)) ||
    hasCodingDecl rest

/-- Drop the first of the first two lines that carries an encoding
declaration, as the python-only preprocessing loop of parse does. -/
def dropCoding (lines : List (List Char)) : List (List Char) :=
  match lines with
  | [] => []
  | l0 :: rest =>
    if hasCodingDecl l0 then rest
    else
      match rest with
      | [] => [l0]
      | l1 :: rest2 => if hasCodingDecl l1 then l0 :: rest2 else l0 :: l1 :: rest2

/-- The line preprocessing of parse: split on newlines, drop a leading
shebang line, and for python drop an encoding-declaration line found
among the first two lines. -/
def preprocessLines (lang : Lang) (code : List Char) : List (List Char) :=
  let lines0 := splitOnChar '\n' code
  let lines1 :=
    if listStartsWith ("#!".data) (lines0.headD []) then lines0.tail else lines0
  if lang.name = ("python".data) then dropCoding lines1 else lines1

/-- Fold of the parse loop over preprocessed lines, with the final flush. -/
def parseLines (lang : Lang) (lines : List (List Char)) : List Section :=
  let fin := lines.foldl (processLine lang) initState
  save fin.sections fin.docsText fin.codeText

/-- Model of pycco parse: split source text into comment/code sections. -/
def parse (code : List Char) (lang : Lang) : List Section :=
  parseLines lang (preprocessLines lang code)

/-- Model of posixpath.split: the part up to the last slash with trailing
slashes stripped unless it is all slashes, and the part after it. -/
def pySplitPath (p : List Char) : List Char × List Char :=
  let tail := (p.reverse.takeWhile (fun c => c != '/')).reverse
  let head := p.take (p.length - tail.length)
  let head1 :=
    if head ≠ [] ∧ ¬ head.all (fun c => c == '/') then
      (head.reverse.dropWhile (fun c => c == '/')).reverse
    else head
  (head1, tail)

/-- Substitution of the final-extension regex by the empty string: drop
everything from the last dot on; without a dot the name is unchanged. -/
def stripExt (filename : List Char) : List Char :=
  if filename.contains '.' then
    ((filename.reverse.dropWhile (fun c => c != '.')).drop 1).reverse
  else filename

/-- Model of posixpath.join for two components. -/
def pyJoin (a b : List Char) : List Char :=
  if listStartsWith ("/".data) b then b
  else if a = [] ∨ listEndsWith ("/".data) a then a ++ b
  else a ++ '/' :: b

/-- Model of pycco destination: compute the output HTML path for a source
path; none models the TypeError raised on a missing output directory. -/
def destination (filepath : List Char) (preserve_paths : Bool) (outdir : List Char) :
    Option (List Char) :=
  let dirname := (pySplitPath filepath).1
  let filename := (pySplitPath filepath).2
  if outdir = [] then none
  else
    let name := stripExt filename
    let name1 := if preserve_paths then pyJoin dirname name else name
    let dest := pyJoin outdir (name1 ++ (".html".data))
    some (if listStartsWith outdir dest then dest else outdir ++ '/' :: dest)

/-- Model of preprocess.sanitize_section_name: lower-case, strip, split on
single spaces, join with dashes. -/
def sanitize_section_name (name : List Char) : List Char :=
  intercalateL ("-".data) (splitOnChar ' ' (strip (name.map lowerChar)))

/-- Backtracking helper for the heading regex: the largest length between
one and the given bound at which the rest of the chunk list is all
whitespace. -/
def findBackWs (rest : List Char) : Nat → Option Nat
  | 0 => none
  | j + 1 => if (rest.drop (j + 1)).all pyIsSpace then some (j + 1) else findBackWs rest j

/-- Match of the anchored heading regex of preprocess against a whole
comment: a leading run of equals signs (group one, returned as a count),
a non-empty run without equals signs (group two), an optional run of
equals signs, then only whitespace to the end.  The greedy or lazy
behaviour of the Python engine is reproduced: group two is maximal, and
on failure it backtracks to the largest shorter length after which only
whitespace remains. -/
def headingMatch (s : List Char) : Option (Nat × List Char) :=
  let a := countLeading (fun c => c == '=') s
  if a = 0 then none
  else
    let rest := s.drop a
    let j := countLeading (fun c => c != '=') rest
    if j = 0 then none
    else
      let rest2 := rest.drop j
      let b := countLeading (fun c => c == '=') rest2
      if (rest2.drop b).all pyIsSpace then some (a, rest.take j)
      else
        match findBackWs rest (j - 1) with
        | some j1 => some (a, rest.take j1)
        | none => none

/-- The first substitution of preprocess: rewrite a whole-comment heading
into a hash-marked heading with a span anchor, via replace_section_name. -/
def sectionNameSub (comment : List Char) : List Char :=
  match headingMatch comment with
  | some (a, name) =>
    List.replicate a '#' ++ (" <span id=\"".data) ++ sanitize_section_name name ++
      ("\" href=\"".data) ++ sanitize_section_name name ++ ("\">".data) ++ name ++
      ("</span>".data)
  | none => comment

/-- Count of occurrences of one character. -/
def countChar (c : Char) (l : List Char) : Nat := l.countP (fun d => d == c)

/-- Model of preprocess.replace_crossref on the captured group: build the
markdown link, splitting off an anchor after a hash sign if one is
present.  none models the ValueError of the two-way unpacking when the
group holds more than one hash sign, and the propagated TypeError of
destination on a missing output directory. -/
def replaceCrossref (preserve_paths : Bool) (outdir : List Char) (body : List Char) :
    Option (List Char) :=
  if body.contains '#' then
    if countChar '#' body = 1 then
      let name := body.takeWhile (fun c => c != '#')
      let anchor := (body.dropWhile (fun c => c != '#')).drop 1
      (destination name preserve_paths outdir).map
        (fun d => (" [".data) ++ name ++ ("](".data) ++ basename d ++ '#' :: anchor ++ [')'])
    else none
  else
    (destination body preserve_paths outdir).map
      (fun d => (" [".data) ++ body ++ ("](".data) ++ basename d ++ [')'])

/-- Lazy body search of the crossref regex: the shortest non-empty run of
non-newline characters followed by two closing brackets; returns the body
and what follows the closing brackets. -/
def findBody : List Char → Option (List Char × List Char)
  | [] => none
  | c :: rest =>
    if c = '\n' then none
    else
      match rest with
      | ']' :: ']' :: r => some ([c], r)
      | _ => (findBody rest).map (fun p => (c :: p.1, p.2))

/-- Fuel-driven scanner for the crossref substitution of preprocess: scan
left to right; at a double opening bracket not preceded by a backtick,
match the lazy body up to the next double closing bracket and splice in
the replacement, resuming after it; otherwise copy one character.  The
fuel is initialised with the length of the list, which always suffices. -/
def goCrossF (preserve_paths : Bool) (outdir : List Char) :
    Nat → Option Char → List Char → Option (List Char)
  | _, _, [] => some []
  | 0, _, s => some s
  | fuel + 1, prev, c :: rest =>
    if c = '[' ∧ rest.headD ' ' = '[' ∧ prev ≠ some backtickChar then
      match findBody (rest.drop 1) with
      | some (body, rest1) =>
        match replaceCrossref preserve_paths outdir body with
        | some repl => (goCrossF preserve_paths outdir fuel (some ']') rest1).map
            (fun t => repl ++ t)
        | none => none
      | none => (goCrossF preserve_paths outdir fuel (some c) rest).map (fun t => c :: t)
    else (goCrossF preserve_paths outdir fuel (some c) rest).map (fun t => c :: t)

/-- The second substitution of preprocess: rewrite every unescaped
double-bracket reference through replace_crossref. -/
def crossrefSub (preserve_paths : Bool) (outdir : List Char) (s : List Char) :
    Option (List Char) :=
  goCrossF preserve_paths outdir s.length none s

/-- Model of pycco preprocess: the heading substitution followed by the
crossref substitution; none models the TypeError on a missing output
directory and any error propagated from the substitutions. -/
def preprocess (preserve_paths : Bool) (outdir : List Char) (comment : List Char) :
    Option (List Char) :=
  if outdir = [] then none
  else crossrefSub preserve_paths outdir (sectionNameSub comment)

/-- Error taxonomy of get_language: both cases are ValueError in Python,
with the messages distinguished here by constructor. -/
inductive GetLangError where
  | unknownForced (name : List Char)
  | cantFigure
deriving DecidableEq

/-- Group one of the extension regex applied from the start of a name:
within the leading newline-free prefix, the segment from the last dot
that is followed by at least one character. -/
def extGroupGo : List Char → Option (List Char)
  | [] => none
  | c :: rest =>
    match extGroupGo rest with
    | some g => some g
    | none => if c = '.' ∧ rest ≠ [] then some (c :: rest) else none

/-- Extension extraction of get_language from a source path. -/
def extGroup (s : List Char) : Option (List Char) :=
  extGroupGo (s.takeWhile (fun c => c != '\n'))

/-- Lookup of an extension key in the languages table. -/
def lookupExt (ext : List Char) : Option Lang :=
  (languagesKeyed.find? (fun p => p.1 == ext)).map (fun p => p.2)

/-- Model of pycco get_language.  The external lexer guesser is a
parameter returning the guessed lexer name, none standing for its
ValueError; a forced name is looked up first, then the path extension,
then the lower-cased guessed name. -/
def get_language (guess : List Char → Option (List Char)) (source : Option (List Char))
    (code : List Char) (forced : Option (List Char)) : Except GetLangError Lang :=
  match forced with
  | some name =>
    match languagesList.find? (fun l => l.name == name) with
    | some l => Except.ok l
    | none => Except.error (GetLangError.unknownForced name)
  | none =>
    let m : Option (List Char) :=
      match source with
      | some src => extGroup (basename src)
      | none => none
    match m.bind lookupExt with
    | some l => Except.ok l
    | none =>
      match guess code with
      | some lexerName =>
        match languagesList.find? (fun l => l.name == lexerName.map lowerChar) with
        | some l => Except.ok l
        | none => Except.error GetLangError.cantFigure
      | none => Except.error GetLangError.cantFigure

/-- The fixed start marker of a Pygments highlight block. -/
def HIGHLIGHT_START : List Char := "<div class=\"highlight\"><pre>".data

/-- The fixed end marker of a Pygments highlight block. -/
def HIGHLIGHT_END : List Char := "</pre></div>".data

/-- The divider_text token of a language, newline, symbol, DIVIDER,
newline. -/
def divider_text (sym : List Char) : List Char :=
  '\n' :: (sym ++ ("DIVIDER\n".data))

/-- The single text handed to the external highlighter: every section's
right-stripped code joined with the divider token. -/
def joinedCode (lang : Lang) (sections : List Section) : List Char :=
  intercalateL (divider_text lang.symbol) (sections.map (fun s => rstrip s.code_text))

/-- Match of the divider_html regex at the head of the list: a run of
newlines, a span tag of class c or c1, the symbol, the DIVIDER word and
closing tag, then a run of newlines; returns what follows. -/
def matchDivAt (sym : List Char) (s : List Char) : Option (List Char) :=
  let s1 := s.dropWhile (fun c => c == '\n')
  if listStartsWith ("<span class=\"c".data) s1 then
    let s2 := s1.drop (("<span class=\"c".data).length)
    let s3opt : Option (List Char) :=
      if listStartsWith ("1\">".data) s2 then some (s2.drop 3)
      else if listStartsWith ("\">".data) s2 then some (s2.drop 2)
      else none
    match s3opt with
    | none => none
    | some s3 =>
      let pat := sym ++ ("DIVIDER</span>".data)
      if listStartsWith pat s3 then
        some ((s3.drop pat.length).dropWhile (fun c => c == '\n'))
      else none
  else none

/-- Fuel-driven scanner implementing re.split on the divider_html
pattern; the fuel is initialised with the length of the list, which
always suffices. -/
def splitDivGo (sym : List Char) : Nat → List Char → List Char → List (List Char)
  | _, acc, [] => [acc.reverse]
  | 0, acc, s => [acc.reverse ++ s]
  | fuel + 1, acc, c :: rest =>
    match matchDivAt sym (c :: rest) with
    | some rest1 => acc.reverse :: splitDivGo sym fuel [] rest1
    | none => splitDivGo sym fuel (c :: acc) rest

/-- Split of the highlighter output on the divider_html pattern. -/
def splitDiv (sym : List Char) (s : List Char) : List (List Char) :=
  splitDivGo sym s.length [] s

/-- A section as enriched by highlight_section: colorized code, rendered
comment markup and the positional index. -/
structure HSection where
  code_html : List Char
  docs_html : List Char
  num : Nat
deriving DecidableEq

/-- Model of itertools.zip_longest over three lists with one fill value
per list. -/
def zipLongest3 {α β γ : Type} (fa : α) (fb : β) (fc : γ)
    (as : List α) (bs : List β) (cs : List γ) : List (α × β × γ) :=
  (List.range (max as.length (max bs.length cs.length))).map
    (fun i => (as.getD i fa, bs.getD i fb, cs.getD i fc))

/-- Model of pycco highlight_section for one zipped triple; the markdown
renderer is a parameter; none models the TypeError on a missing output
directory and any error propagated from preprocess. -/
def highlight_section (md : List Char → List Char) (preserve_paths : Bool)
    (outdir : List Char) (fragment : List Char) (s : Section) (i : Nat) :
    Option HSection :=
  if outdir = [] then none
  else (preprocess preserve_paths outdir s.docs_text).map
    (fun pre => ⟨HIGHLIGHT_START ++ fragment ++ HIGHLIGHT_END, md pre, i⟩)

/-- Evaluate an option-returning function over a list, failing on the
first failure, as the Python list comprehension does on a raise. -/
def mapOpt {α β : Type} (f : α → Option β) : List α → Option (List β)
  | [] => some []
  | a :: rest =>
    match f a, mapOpt f rest with
    | some b, some bs => some (b :: bs)
    | _, _ => none

/-- The default section standing in for the zip_longest fill value. -/
def defaultSection : Section := ⟨[], []⟩

/-- Model of pycco highlight: call the external highlighter once on the
divider-joined code, strip the Pygments wrappers, split on the rendered
divider, and zip the fragments back with the sections by position.  The
external highlighter and markdown renderer are parameters.  none models
the TypeError that Python raises when the split yields more fragments
than sections, in which case zip_longest fills the section slot with a
string that highlight_section cannot index. -/
def highlight (hl md : List Char → List Char) (preserve_paths : Bool)
    (outdir : List Char) (sections : List Section) (lang : Lang) :
    Option (List HSection) :=
  let output := replaceAll HIGHLIGHT_END (replaceAll HIGHLIGHT_START (hl (joinedCode lang sections)))
  let fragments := splitDiv lang.symbol output
  if sections.length < fragments.length then none
  else
    mapOpt (fun z => highlight_section md preserve_paths outdir z.1 z.2.1 z.2.2)
      (zipLongest3 [] defaultSection 0 fragments sections (List.range sections.length))

/-- The invariant of claim one: a section has a non-empty comment text or
a non-empty code text. -/
def secOK (s : Section) : Prop := s.docs_text ≠ [] ∨ s.code_text ≠ []

theorem save_secOK {ss : List Section} {d c : List Char}
    (h : ∀ s ∈ ss, secOK s) : ∀ s ∈ save ss d c, secOK s := by
  intro s hs
  unfold save at hs
  split at hs
  · rcases List.mem_append.1 hs with h1 | h2
    · exact h s h1
    · rename_i hcond
      simp only [List.mem_singleton] at h2
      subst h2
      exact hcond
  · exact h s hs

theorem processAsCode_secOK {st : PState} {line : List Char}
    (h : ∀ s ∈ st.sections, secOK s) :
    ∀ s ∈ (processAsCode st line).sections, secOK s := by
  unfold processAsCode
  split
  · exact save_secOK h
  · exact h

theorem processDelim_secOK {ms me : List Char} {st : PState} {line : List Char}
    (h : ∀ s ∈ st.sections, secOK s) :
    ∀ s ∈ (processDelim ms me st line).sections, secOK s := by
  unfold processDelim
  dsimp only
  repeat' split
  all_goals first
    | exact processAsCode_secOK h
    | exact save_secOK h
    | exact h

theorem processRest_secOK {sym : List Char} {st : PState} {line : List Char}
    (h : ∀ s ∈ st.sections, secOK s) :
    ∀ s ∈ (processRest sym st line).sections, secOK s := by
  unfold processRest
  split
  · exact h
  · split
    · split
      · exact save_secOK h
      · exact h
    · exact processAsCode_secOK h

theorem processLine_secOK {lang : Lang} {st : PState} {line : List Char}
    (h : ∀ s ∈ st.sections, secOK s) :
    ∀ s ∈ (processLine lang st line).sections, secOK s := by
  unfold processLine
  split
  · split
    · exact processDelim_secOK h
    · exact processRest_secOK h
  · exact processRest_secOK h

theorem foldl_processLine_secOK (lang : Lang) (lines : List (List Char)) (st : PState)
    (h : ∀ s ∈ st.sections, secOK s) :
    ∀ s ∈ (lines.foldl (processLine lang) st).sections, secOK s := by
  induction lines generalizing st with
  | nil => exact h
  | cons l rest ih =>
    exact ih (processLine lang st l) (processLine_secOK h)

/-- Claim C1: every section emitted by parse has a non-empty comment text
or a non-empty code text; a section with both fields empty is never
emitted, for every input text and every language descriptor. -/
theorem parse_sections_nonempty (code : List Char) (lang : Lang) :
    ∀ s ∈ parse code lang, s.docs_text ≠ [] ∨ s.code_text ≠ [] := by
  intro s hs
  have h0 : ∀ t ∈ initState.sections, secOK t := by
    intro t ht
    simp [initState] at ht
  exact save_secOK (foldl_processLine_secOK lang (preprocessLines lang code) initState h0) s hs

/-- Witness for claim C1 at a concrete input. -/
theorem parse_sections_nonempty_witness :
    (⟨[], ('x' :: '\n' :: [])⟩ : Section) ∈ parse (['x']) python ∧
      (([] : List Char) ≠ [] ∨ ('x' :: '\n' :: []) ≠ []) :=
  ⟨by decide, parse_sections_nonempty (['x']) python ⟨[], ('x' :: '\n' :: [])⟩ (by decide)⟩

theorem listStartsWith_nil {p : List Char} (hp : p ≠ []) : listStartsWith p [] = false := by
  cases p with
  | nil => exact absurd rfl hp
  | cons a as => rfl

/-- Claim C10: on the empty input, parse returns exactly one section with
empty comment text and a single newline as code text, for every language
descriptor whose comment symbol is non-empty (as every registered
descriptor's symbol is). -/
theorem parse_empty_input (lang : Lang) (hsym : lang.symbol ≠ []) :
    parse [] lang = [⟨[], ['\n']⟩] := by
  have hlines : preprocessLines lang [] = [[]] := by
    unfold preprocessLines
    by_cases hn : lang.name = ("python".data) <;>
      simp [splitOnChar, hn, dropCoding, hasCodingDecl, listStartsWith]
  have hrest : processRest lang.symbol initState [] =
      { initState with hasCode := true, codeText := ['\n'] } := by
    unfold processRest
    simp [initState, isCommentLine, lstrip, listStartsWith_nil hsym, processAsCode]
  have hline : processLine lang initState [] = processRest lang.symbol initState [] := by
    unfold processLine
    cases hm : lang.multi with
    | none => rfl
    | some p =>
      obtain ⟨ms, me⟩ := p
      by_cases hms : ms.isEmpty
      · simp [hms]
      · by_cases hme : me.isEmpty
        · simp [hms, hme]
        · have hms1 : ms ≠ [] := by simpa [List.isEmpty_iff] using hms
          have hme1 : me ≠ [] := by simpa [List.isEmpty_iff] using hme
          have h1 : isDelimLine ms me [] = false := by
            unfold isDelimLine
            have e1 : lstrip [] = ([] : List Char) := rfl
            have e2 : rstrip [] = ([] : List Char) := rfl
            have hmr : ms.reverse ≠ [] := by simpa [List.reverse_eq_nil_iff] using hms1
            have her : me.reverse ≠ [] := by simpa [List.reverse_eq_nil_iff] using hme1
            rw [e1, e2]
            unfold listEndsWith
            simp [listStartsWith_nil hms1, listStartsWith_nil hme1,
              listStartsWith_nil hmr, listStartsWith_nil her]
          simp [hms, hme, h1]
  unfold parse
  rw [hlines]
  unfold parseLines
  simp only [List.foldl_cons, List.foldl_nil]
  rw [hline, hrest]
  simp [save, initState]

/-- Witness for claim C10 at the python descriptor. -/
theorem parse_empty_input_witness :
    python.symbol ≠ [] ∧ parse [] python = [⟨[], ['\n']⟩] :=
  ⟨by decide, parse_empty_input python (by decide)⟩

theorem listStartsWith_append (p r : List Char) : listStartsWith p (p ++ r) = true := by
  induction p with
  | nil => rfl
  | cons c cs ih => simp [listStartsWith, ih]

theorem listEndsWith_append (s x : List Char) : listEndsWith s (x ++ s) = true := by
  unfold listEndsWith
  rw [List.reverse_append]
  exact listStartsWith_append s.reverse x.reverse

theorem pyJoin_ends (a n h : List Char) : ∃ y, pyJoin a (n ++ h) = y ++ h := by
  unfold pyJoin
  split
  · exact ⟨n, rfl⟩
  · split
    · exact ⟨a ++ n, by rw [List.append_assoc]⟩
    · exact ⟨a ++ '/' :: n, by simp⟩

theorem dest_if_shape (outdir n : List Char) :
    listStartsWith outdir
      (if listStartsWith outdir (pyJoin outdir (n ++ (".html".data))) = true
       then pyJoin outdir (n ++ (".html".data))
       else outdir ++ '/' :: pyJoin outdir (n ++ (".html".data))) = true ∧
    listEndsWith (".html".data)
      (if listStartsWith outdir (pyJoin outdir (n ++ (".html".data))) = true
       then pyJoin outdir (n ++ (".html".data))
       else outdir ++ '/' :: pyJoin outdir (n ++ (".html".data))) = true := by
  obtain ⟨y, hy⟩ := pyJoin_ends outdir n (".html".data)
  constructor
  · split
    · rename_i h2
      exact h2
    · exact listStartsWith_append outdir _
  · split
    · rw [hy]
      exact listEndsWith_append (".html".data) y
    · rw [hy]
      have e : outdir ++ '/' :: (y ++ (".html".data)) =
          (outdir ++ '/' :: y) ++ (".html".data) := by simp
      rw [e]
      exact listEndsWith_append (".html".data) (outdir ++ '/' :: y)

/-- Claim C4: for every input file path, every non-empty output directory
and either value of the path-preservation flag, destination returns a
path that starts with the output directory and ends with the html
extension. -/
theorem destination_shape (filepath : List Char) (preserve_paths : Bool)
    (outdir : List Char) (h : outdir ≠ []) :
    ∃ d, destination filepath preserve_paths outdir = some d ∧
      listStartsWith outdir d = true ∧ listEndsWith (".html".data) d = true := by
  unfold destination
  rw [if_neg h]
  exact ⟨_, rfl, (dest_if_shape outdir _).1, (dest_if_shape outdir _).2⟩

/-- Witness for claim C4 at a concrete input. -/
theorem destination_shape_witness :
    ("docs".data) ≠ ([] : List Char) ∧
      ∃ d, destination ("/foo".data) true ("docs".data) = some d ∧
        listStartsWith ("docs".data) d = true ∧
        listEndsWith (".html".data) d = true :=
  ⟨by decide, destination_shape ("/foo".data) true ("docs".data) (by decide)⟩

/-- Claim C7: forcing a language name that matches no registered
descriptor makes get_language fail with the unknown-forced-language
error, for every file path (present, absent or unparsable), every source
text and every behaviour of the external lexer guesser; the forced-name
lookup takes precedence over extension-based and content-based
resolution. -/
theorem get_language_unknown_forced (guess : List Char → Option (List Char))
    (source : Option (List Char)) (code : List Char) (name : List Char)
    (h : ∀ l ∈ languagesList, l.name ≠ name) :
    get_language guess source code (some name) =
      Except.error (GetLangError.unknownForced name) := by
  unfold get_language
  dsimp only
  have hf : languagesList.find? (fun l => l.name == name) = none := by
    rw [List.find?_eq_none]
    intro l hl
    simp [h l hl]
  rw [hf]

/-- Witness for claim C7 at a concrete unregistered name. -/
theorem get_language_unknown_forced_witness :
    (∀ l ∈ languagesList, l.name ≠ ("klingon".data)) ∧
      get_language (fun _ => none) (some ("x.py".data)) [] (some ("klingon".data)) =
        Except.error (GetLangError.unknownForced ("klingon".data)) :=
  ⟨by decide,
    get_language_unknown_forced (fun _ => none) (some ("x.py".data)) []
      ("klingon".data) (by decide)⟩

theorem processLine_of_not_delim {lang : Lang} {line : List Char} (st : PState)
    (h : delimGuard lang line = false) :
    processLine lang st line = processRest lang.symbol st line := by
  unfold processLine
  unfold delimGuard at h
  cases hm : lang.multi with
  | none => rfl
  | some p =>
    obtain ⟨ms, me⟩ := p
    rw [hm] at h
    dsimp only at h ⊢
    rw [if_neg (by simp [h])]

theorem processRest_multiline {sym : List Char} {st : PState} {line : List Char}
    (h : st.multiLine = true) :
    processRest sym st line =
      { st with docsText := st.docsText ++
          (if listStartsWith (List.replicate st.indentLevel ' ') line = true then
            line.drop st.indentLevel
          else line) ++ ['\n'] } := by
  unfold processRest
  rw [if_pos h]
  dsimp only
  split
  · rfl
  · rfl

/-- Claim C6: the segmenter state machine never fails on malformed or
unbalanced block-comment markers; once the inside-block-comment flag is
set, any run of lines on which the delimiter guard does not fire leaves
the flag set, emits no section, keeps the code accumulator intact and
only grows the comment accumulator, so that the end-of-input flush emits
one trailing comment section.  The model itself returns a plain list of
sections for every input, so no input raises. -/
theorem parse_unterminated_block (lang : Lang) (lines : List (List Char)) (st : PState)
    (hml : st.multiLine = true)
    (hnd : ∀ l ∈ lines, delimGuard lang l = false) :
    (lines.foldl (processLine lang) st).multiLine = true ∧
    (lines.foldl (processLine lang) st).sections = st.sections ∧
    (lines.foldl (processLine lang) st).codeText = st.codeText ∧
    (∃ extra, (lines.foldl (processLine lang) st).docsText = st.docsText ++ extra) ∧
    (st.docsText ≠ [] →
      save (lines.foldl (processLine lang) st).sections
          (lines.foldl (processLine lang) st).docsText
          (lines.foldl (processLine lang) st).codeText =
        st.sections ++ [⟨(lines.foldl (processLine lang) st).docsText, st.codeText⟩]) := by
  induction lines generalizing st with
  | nil =>
    simp only [List.foldl_nil]
    refine ⟨hml, trivial, trivial, ⟨[], by simp⟩, fun hd => ?_⟩
    unfold save
    rw [if_pos (Or.inl hd)]
  | cons l rest ih =>
    simp only [List.foldl_cons]
    rw [processLine_of_not_delim st (hnd l (List.mem_cons_self l rest)),
      processRest_multiline hml]
    have hrec := ih
      { st with docsText := st.docsText ++
          (if listStartsWith (List.replicate st.indentLevel ' ') l = true then
            l.drop st.indentLevel
          else l) ++ ['\n'] }
      (by simpa using hml)
      (fun x hx => hnd x (List.mem_cons_of_mem l hx))
    obtain ⟨h1, h2, h3, ⟨e, he⟩, h5⟩ := hrec
    refine ⟨h1, by simpa using h2, by simpa using h3, ?_, fun hd => ?_⟩
    · refine ⟨(if listStartsWith (List.replicate st.indentLevel ' ') l = true then
        l.drop st.indentLevel
      else l) ++ ['\n'] ++ e, ?_⟩
      rw [he]
      simp
    · have hd1 : ({ st with docsText := st.docsText ++
          (if listStartsWith (List.replicate st.indentLevel ' ') l = true then
            l.drop st.indentLevel
          else l) ++ ['\n'] } : PState).docsText ≠ [] := by
        simp
      have h6 := h5 hd1
      simpa using h6

/-- Witness for claim C6: a state inside an open block comment absorbs
two plain lines of a c file without closing, emitting no section. -/
theorem parse_unterminated_block_witness :
    (⟨[], false, ['d'], [], true, false, 0⟩ : PState).multiLine = true ∧
    (∀ l ∈ [("hello".data), ("world".data)], delimGuard cLang l = false) ∧
    ([("hello".data), ("world".data)].foldl (processLine cLang)
        (⟨[], false, ['d'], [], true, false, 0⟩ : PState)).multiLine = true ∧
    ([("hello".data), ("world".data)].foldl (processLine cLang)
        (⟨[], false, ['d'], [], true, false, 0⟩ : PState)).sections = [] :=
  ⟨rfl, by decide,
    (parse_unterminated_block cLang [("hello".data), ("world".data)]
      ⟨[], false, ['d'], [], true, false, 0⟩ rfl (by decide)).1,
    (parse_unterminated_block cLang [("hello".data), ("world".data)]
      ⟨[], false, ['d'], [], true, false, 0⟩ rfl (by decide)).2.1⟩

/-- Concatenation of the code texts of a list of sections, in order. -/
def sectionsCode (ss : List Section) : List Char :=
  ss.foldr (fun s acc => s.code_text ++ acc) []

/-- Join a list of lines, terminating each with a newline. -/
def joinLinesNl (ls : List (List Char)) : List Char :=
  ls.foldr (fun l acc => l ++ '\n' :: acc) []

theorem sectionsCode_base (ss : List Section) (b : List Char) :
    ss.foldr (fun s acc => s.code_text ++ acc) b = sectionsCode ss ++ b := by
  induction ss with
  | nil => simp [sectionsCode]
  | cons s rest ih => simp [sectionsCode, ih, List.append_assoc]

theorem sectionsCode_save (ss : List Section) (d c : List Char) :
    sectionsCode (save ss d c) = sectionsCode ss ++ c := by
  unfold save
  split
  · show sectionsCode (ss ++ [⟨d, c⟩]) = sectionsCode ss ++ c
    unfold sectionsCode
    rw [List.foldr_append]
    simp [sectionsCode_base]
  · rename_i hcond
    push_neg at hcond
    rw [hcond.2]
    simp

theorem processRest_code_concat {sym : List Char} {st : PState} {line : List Char}
    (hml : st.multiLine = false) :
    sectionsCode (processRest sym st line).sections ++ (processRest sym st line).codeText =
      sectionsCode st.sections ++ st.codeText ++
        (if isCommentLine sym line = true then [] else line ++ ['\n']) ∧
    (processRest sym st line).multiLine = false := by
  unfold processRest
  rw [if_neg (by simp [hml])]
  by_cases hc : isCommentLine sym line = true
  · rw [if_pos hc, if_pos hc]
    dsimp only
    split
    · simp [sectionsCode_save, hml]
    · simp [hml]
  · rw [if_neg hc, if_neg hc]
    unfold processAsCode
    dsimp only
    split
    · simp [sectionsCode_save, hml, List.append_assoc]
    · simp [hml, List.append_assoc]

theorem processLine_no_multi {lang : Lang} (st : PState) (line : List Char)
    (h : lang.multi = none) :
    processLine lang st line = processRest lang.symbol st line := by
  unfold processLine
  rw [h]

theorem foldl_code_concat (lang : Lang) (h : lang.multi = none)
    (lines : List (List Char)) (st : PState) (hml : st.multiLine = false) :
    sectionsCode (lines.foldl (processLine lang) st).sections ++
        (lines.foldl (processLine lang) st).codeText =
      sectionsCode st.sections ++ st.codeText ++
        joinLinesNl (lines.filter (fun l => !isCommentLine lang.symbol l)) := by
  induction lines generalizing st with
  | nil => simp [joinLinesNl]
  | cons l rest ih =>
    simp only [List.foldl_cons]
    rw [processLine_no_multi st l h]
    obtain ⟨hstep, hml2⟩ := @processRest_code_concat lang.symbol st l hml
    rw [ih (processRest lang.symbol st l) hml2]
    by_cases hc : isCommentLine lang.symbol l = true
    · rw [hstep]
      simp [hc, List.filter_cons, joinLinesNl]
    · have hc2 : isCommentLine lang.symbol l = false := by
        simpa using hc
      rw [hstep]
      simp [hc2, List.filter_cons, joinLinesNl, List.append_assoc]

/-- Claim C2, amended: for every language descriptor without block-comment
markers, concatenating the code texts of the sections returned by parse
reconstructs exactly the newline-terminated non-comment lines of the
preprocessed input (shebang and, for python, encoding declaration
removed), in order.  With block-comment markers the reconstruction can
fail, because closing a section at a block-comment line saves the
accumulated code without its trailing newline; see the counterexample. -/
theorem parse_code_concat_no_multi (code : List Char) (lang : Lang)
    (h : lang.multi = none) :
    sectionsCode (parse code lang) =
      joinLinesNl ((preprocessLines lang code).filter
        (fun l => !isCommentLine lang.symbol l)) := by
  unfold parse parseLines
  dsimp only
  rw [sectionsCode_save]
  have := foldl_code_concat lang h (preprocessLines lang code) initState rfl
  rw [this]
  simp [initState, sectionsCode]

/-- Witness for the amended claim C2 at a concrete perl input. -/
theorem parse_code_concat_no_multi_witness :
    perl.multi = none ∧
      sectionsCode (parse ("# a comment\nx = 1\ny = 2".data) perl) =
        joinLinesNl ((preprocessLines perl ("# a comment\nx = 1\ny = 2".data)).filter
          (fun l => !isCommentLine perl.symbol l)) :=
  ⟨rfl, parse_code_concat_no_multi ("# a comment\nx = 1\ny = 2".data) perl rfl⟩

/-- Counterexample to claim C2 as stated: on a python input whose block
comment closes a section, the concatenated code texts drop the newline
that separated the code saved by the block-comment branch from the code
that follows, so the non-comment lines (here the first and third line,
the block-comment line being the comment) are not reconstructed. -/
theorem parse_code_concat_counterexample :
    sectionsCode (parse ("x = 1\n\"\"\"doc\"\"\"\ny = 2".data) python) =
      ("x = 1y = 2\n".data) ∧
    preprocessLines python ("x = 1\n\"\"\"doc\"\"\"\ny = 2".data) =
      [("x = 1".data), ("\"\"\"doc\"\"\"".data), ("y = 2".data)] ∧
    parse ("x = 1\n\"\"\"doc\"\"\"\ny = 2".data) python =
      [⟨("doc\n".data), ("x = 1".data)⟩, ⟨[], ("y = 2\n".data)⟩] ∧
    sectionsCode (parse ("x = 1\n\"\"\"doc\"\"\"\ny = 2".data) python) ≠
      joinLinesNl [("x = 1".data), ("y = 2".data)] := by
  refine ⟨by decide, by decide, by decide, by decide⟩

/-- Counterexample to claim C5 as stated: in the python run where the
block-comment branch closes a section over accumulated code, the new
section starts with an empty code accumulator, not with the most recent
line of the previous section's code block (here that line is x = 1). -/
theorem processDelim_carry_counterexample :
    ([("x = 1".data), ("\"\"\"doc\"\"\"".data)].foldl (processLine python)
        initState).sections = [⟨("doc\n".data), ("x = 1".data)⟩] ∧
    ([("x = 1".data), ("\"\"\"doc\"\"\"".data)].foldl (processLine python)
        initState).codeText = [] ∧
    pyLastSplit ("x = 1".data) = ("x = 1".data) ∧
    ([] : List Char) ≠ ("x = 1".data) := by
  refine ⟨by decide, by decide, by decide, by decide⟩

theorem pyLastSplit_endsWith_nl (l : List Char) (h : listEndsWith ['\n'] l = true) :
    pyLastSplit l = [] := by
  unfold pyLastSplit
  unfold listEndsWith at h
  cases hr : l.reverse with
  | nil =>
    rw [hr] at h
    exact absurd h (by decide)
  | cons c t =>
    rw [hr] at h
    simp only [List.reverse_cons, listStartsWith, Bool.and_eq_true, beq_iff_eq] at h
    have hc : c = '\n' := h.1.symm
    subst hc
    simp [List.takeWhile]

/-- Claim C5, amended: when the block-comment branch closes the current
section because code was accumulated and the new comment text is
non-blank, the new section carries forward the part of the accumulated
code after its last newline; since the accumulated code always ends with
a newline at that point, the carried code is the empty string, not the
most recent line of the previous code block. -/
theorem processDelim_carry (ms me : List Char) (st : PState) (line : List Char)
    (hstr : st.multiString = false)
    (hsw : listStartsWith ms (strip line) = true)
    (hhc : st.hasCode = true)
    (hdocs : strip (st.docsText ++ strip (replaceAll me (replaceAll ms line)) ++ ['\n']) ≠ []) :
    (processDelim ms me st line).codeText = pyLastSplit st.codeText ∧
    (listEndsWith ['\n'] st.codeText = true →
      (processDelim ms me st line).codeText = []) := by
  unfold processDelim
  dsimp only
  rw [if_neg (by simp [hsw, hstr])]
  rw [if_pos ⟨hhc, hdocs⟩]
  exact ⟨rfl, fun h => pyLastSplit_endsWith_nl st.codeText h⟩

/-- Witness for the amended claim C5 at the concrete python input. -/
theorem processDelim_carry_witness :
    ((⟨[], true, [], ("x = 1\n".data), false, false, 0⟩ : PState).multiString = false ∧
      listStartsWith ("\"\"\"".data) (strip ("\"\"\"doc\"\"\"".data)) = true ∧
      (⟨[], true, [], ("x = 1\n".data), false, false, 0⟩ : PState).hasCode = true ∧
      listEndsWith ['\n'] ("x = 1\n".data) = true) ∧
    (processDelim ("\"\"\"".data) ("\"\"\"".data)
        ⟨[], true, [], ("x = 1\n".data), false, false, 0⟩
        ("\"\"\"doc\"\"\"".data)).codeText = [] :=
  ⟨⟨rfl, by decide, rfl, by decide⟩,
    (processDelim_carry ("\"\"\"".data) ("\"\"\"".data)
      ⟨[], true, [], ("x = 1\n".data), false, false, 0⟩
      ("\"\"\"doc\"\"\"".data) rfl (by decide) rfl (by decide)).2 (by decide)⟩

theorem mapOpt_all_some {α β : Type} (f : α → Option β) (xs : List α)
    (h : ∀ x ∈ xs, (f x).isSome = true) :
    ∃ ys, mapOpt f xs = some ys ∧ ys.length = xs.length ∧
      ∀ i : Nat, ys.get? i = (xs.get? i).bind f := by
  induction xs with
  | nil =>
    refine ⟨[], rfl, rfl, fun i => ?_⟩
    cases i <;> rfl
  | cons a rest ih =>
    obtain ⟨b, hb⟩ := Option.isSome_iff_exists.1 (h a (List.mem_cons_self a rest))
    obtain ⟨ys, hys, hlen, hidx⟩ := ih (fun x hx => h x (List.mem_cons_of_mem a hx))
    refine ⟨b :: ys, ?_, by simp [hlen], fun i => ?_⟩
    · unfold mapOpt
      rw [hb, hys]
    · cases i with
      | zero => simp [hb]
      | succ n => simpa using hidx n

theorem zipLongest3_length {α β γ : Type} (fa : α) (fb : β) (fc : γ)
    (as : List α) (bs : List β) (cs : List γ) :
    (zipLongest3 fa fb fc as bs cs).length =
      max as.length (max bs.length cs.length) := by
  simp [zipLongest3]

theorem zipLongest3_get? {α β γ : Type} (fa : α) (fb : β) (fc : γ)
    (as : List α) (bs : List β) (cs : List γ) (i : Nat)
    (h : i < max as.length (max bs.length cs.length)) :
    (zipLongest3 fa fb fc as bs cs).get? i =
      some (as.getD i fa, bs.getD i fb, cs.getD i fc) := by
  unfold zipLongest3
  rw [List.get?_map, List.get?_range h]
  rfl

theorem zipLongest3_mem {α β γ : Type} {fa : α} {fb : β} {fc : γ}
    {as : List α} {bs : List β} {cs : List γ} {z : α × β × γ}
    (hz : z ∈ zipLongest3 fa fb fc as bs cs) :
    ∃ i, i < max as.length (max bs.length cs.length) ∧
      z = (as.getD i fa, bs.getD i fb, cs.getD i fc) := by
  unfold zipLongest3 at hz
  obtain ⟨i, hi, hzi⟩ := List.mem_map.1 hz
  exact ⟨i, List.mem_range.1 hi, hzi.symm⟩

/-- Claim C3: when the external highlighter's output splits into at most
as many fragments as there are sections, highlight returns exactly one
colorized entry per section, positionally aligned, with missing
fragments filled by the empty string; the hypotheses also require a
non-empty output directory and that preprocess succeeds on each
section's comment (both of which otherwise raise in any run). -/
theorem highlight_reconciles (hl md : List Char → List Char) (preserve_paths : Bool)
    (outdir : List Char) (sections : List Section) (lang : Lang)
    (ho : outdir ≠ [])
    (hfrag : (splitDiv lang.symbol (replaceAll HIGHLIGHT_END (replaceAll HIGHLIGHT_START
        (hl (joinedCode lang sections))))).length ≤ sections.length)
    (hdocs : ∀ s ∈ sections,
      (preprocess preserve_paths outdir s.docs_text).isSome = true) :
    ∃ out, highlight hl md preserve_paths outdir sections lang = some out ∧
      out.length = sections.length ∧
      ∀ i, i < sections.length →
        out.get? i = highlight_section md preserve_paths outdir
          ((splitDiv lang.symbol (replaceAll HIGHLIGHT_END (replaceAll HIGHLIGHT_START
            (hl (joinedCode lang sections))))).getD i [])
          (sections.getD i defaultSection) i := by
  unfold highlight
  dsimp only
  rw [if_neg (Nat.not_lt.2 hfrag)]
  have hmax : max (splitDiv lang.symbol (replaceAll HIGHLIGHT_END (replaceAll HIGHLIGHT_START
      (hl (joinedCode lang sections))))).length
      (max sections.length (List.range sections.length).length) = sections.length := by
    rw [List.length_range]
    rw [Nat.max_self]
    exact Nat.max_eq_right hfrag
  have hall : ∀ z ∈ zipLongest3 [] defaultSection 0
      (splitDiv lang.symbol (replaceAll HIGHLIGHT_END (replaceAll HIGHLIGHT_START
        (hl (joinedCode lang sections))))) sections (List.range sections.length),
      (highlight_section md preserve_paths outdir z.1 z.2.1 z.2.2).isSome = true := by
    intro z hz
    obtain ⟨i, hi, hzi⟩ := zipLongest3_mem hz
    rw [hmax] at hi
    subst hzi
    dsimp only
    unfold highlight_section
    rw [if_neg ho]
    have hmem : sections.getD i defaultSection ∈ sections := by
      rw [List.getD_eq_get sections defaultSection hi]
      exact List.get_mem sections i hi
    obtain ⟨pre, hpre⟩ := Option.isSome_iff_exists.1 (hdocs _ hmem)
    rw [hpre]
    rfl
  obtain ⟨ys, hys, hlen, hidx⟩ := mapOpt_all_some
    (fun z => highlight_section md preserve_paths outdir z.1 z.2.1 z.2.2)
    (zipLongest3 [] defaultSection 0
      (splitDiv lang.symbol (replaceAll HIGHLIGHT_END (replaceAll HIGHLIGHT_START
        (hl (joinedCode lang sections))))) sections (List.range sections.length)) hall
  refine ⟨ys, hys, ?_, fun i hi => ?_⟩
  · rw [hlen, zipLongest3_length, hmax]
  · rw [hidx i]
    rw [zipLongest3_get? [] defaultSection 0 _ _ _ i (by rw [hmax]; exact hi)]
    have hrange : (List.range sections.length).getD i 0 = i := by
      rw [List.getD_eq_get _ 0 (by simpa using hi)]
      simp
    simp only [Option.some_bind]
    rw [hrange]

/-- Witness for claim C3 at a concrete one-section input with an identity
highlighter and renderer. -/
theorem highlight_reconciles_witness :
    (("docs".data) ≠ ([] : List Char) ∧
      (splitDiv python.symbol (replaceAll HIGHLIGHT_END (replaceAll HIGHLIGHT_START
        ((fun s => s) (joinedCode python [⟨("hi".data), ("x = 1".data)⟩]))))).length ≤
        ([⟨("hi".data), ("x = 1".data)⟩] : List Section).length ∧
      (∀ s ∈ ([⟨("hi".data), ("x = 1".data)⟩] : List Section),
        (preprocess true ("docs".data) s.docs_text).isSome = true)) ∧
    ∃ out, highlight (fun s => s) (fun s => s) true ("docs".data)
        [⟨("hi".data), ("x = 1".data)⟩] python = some out ∧ out.length = 1 :=
  ⟨⟨by decide, by decide, by decide⟩,
    match highlight_reconciles (fun s => s) (fun s => s) true ("docs".data)
        [⟨("hi".data), ("x = 1".data)⟩] python (by decide) (by decide) (by decide) with
    | ⟨out, h1, h2, _⟩ => ⟨out, h1, h2⟩⟩

/-- Counterexample to claim C8 as stated: the heading regex is anchored
and not in multiline mode, so a comment that merely contains a heading
line after other text is left entirely unchanged; no heading marker is
produced although the second line has the stated shape. -/
theorem preprocess_heading_counterexample :
    preprocess true ("docs".data) ("intro\n==Top==\n".data) =
      some ("intro\n==Top==\n".data) ∧
    (splitOnChar '\n' ("intro\n==Top==\n".data)).get? 1 = some ("==Top==".data) ∧
    ("==Top==".data) =
      List.replicate 2 '=' ++ ("Top".data) ++ List.replicate 2 '=' ++ [] ∧
    ¬ '#' ∈ ("intro\n==Top==\n".data) := by
  refine ⟨by decide, by decide, by decide, by decide⟩

theorem lowerChar_eq_bracket (c : Char) (h : lowerChar c = '[') : c = '[' := by
  unfold lowerChar at h
  split at h
  · rename_i hc
    exfalso
    obtain ⟨h1, h2⟩ := hc
    have hb1 : 97 ≤ c.toNat + 32 := by omega
    have hb2 : c.toNat + 32 ≤ 122 := by omega
    generalize hm : c.toNat + 32 = m at h hb1 hb2
    interval_cases m <;> exact absurd h (by decide)
  · exact h

theorem mem_intercalateL {c : Char} {sep : List Char} {parts : List (List Char)}
    (h : c ∈ intercalateL sep parts) : c ∈ sep ∨ ∃ part ∈ parts, c ∈ part := by
  induction parts with
  | nil => simp [intercalateL] at h
  | cons x rest ih =>
    cases rest with
    | nil =>
      simp only [intercalateL] at h
      exact Or.inr ⟨x, by simp, h⟩
    | cons y rest2 =>
      simp only [intercalateL, List.append_assoc, List.mem_append] at h
      rcases h with hx | hsep | hrec
      · exact Or.inr ⟨x, by simp, hx⟩
      · exact Or.inl hsep
      · rcases ih hrec with hsep | ⟨part, hpart, hcp⟩
        · exact Or.inl hsep
        · exact Or.inr ⟨part, List.mem_cons_of_mem x hpart, hcp⟩

theorem mem_splitOnChar {c sep : Char} {l : List Char} :
    ∀ {part : List Char}, part ∈ splitOnChar sep l → c ∈ part → c ∈ l := by
  induction l with
  | nil =>
    intro part hp hc
    simp [splitOnChar] at hp
    subst hp
    simp at hc
  | cons x rest ih =>
    intro part hp hc
    unfold splitOnChar at hp
    by_cases hx : (x == sep) = true
    · rw [if_pos hx] at hp
      rcases List.mem_cons.1 hp with h1 | h2
      · subst h1
        simp at hc
      · exact List.mem_cons_of_mem x (ih h2 hc)
    · rw [if_neg hx] at hp
      cases hsp : splitOnChar sep rest with
      | nil =>
        rw [hsp] at hp
        simp at hp
        subst hp
        simp at hc
        simp [hc]
      | cons p ps =>
        rw [hsp] at hp
        rcases List.mem_cons.1 hp with h1 | h2
        · subst h1
          rcases List.mem_cons.1 hc with h3 | h4
          · simp [h3]
          · exact List.mem_cons_of_mem x (ih (hsp ▸ List.mem_cons_self p ps) h4)
        · exact List.mem_cons_of_mem x (ih (hsp ▸ List.mem_cons_of_mem p h2) hc)

theorem mem_lstrip {c : Char} {l : List Char} (h : c ∈ lstrip l) : c ∈ l :=
  (List.dropWhile_sublist pyIsSpace).subset h

theorem mem_rstrip {c : Char} {l : List Char} (h : c ∈ rstrip l) : c ∈ l := by
  unfold rstrip at h
  rw [List.mem_reverse] at h
  have h2 := (List.dropWhile_sublist pyIsSpace).subset h
  rwa [List.mem_reverse] at h2

theorem mem_strip {c : Char} {l : List Char} (h : c ∈ strip l) : c ∈ l :=
  mem_lstrip (mem_rstrip h)

theorem mem_sanitize {c : Char} {name : List Char}
    (h : c ∈ sanitize_section_name name) :
    c = '-' ∨ ∃ c0 ∈ name, c = lowerChar c0 := by
  unfold sanitize_section_name at h
  rcases mem_intercalateL h with hsep | ⟨part, hpart, hcp⟩
  · left
    simpa using hsep
  · right
    have h1 : c ∈ strip (name.map lowerChar) := mem_splitOnChar hpart hcp
    have h2 : c ∈ name.map lowerChar := mem_strip h1
    obtain ⟨c0, hc0, he⟩ := List.mem_map.1 h2
    exact ⟨c0, hc0, he.symm⟩

theorem sanitize_no_bracket {name : List Char} (h : '[' ∉ name) :
    '[' ∉ sanitize_section_name name := by
  intro hc
  rcases mem_sanitize hc with h1 | ⟨c0, hc0, he⟩
  · exact absurd h1 (by decide)
  · exact h ((lowerChar_eq_bracket c0 he.symm) ▸ hc0)

theorem goCrossF_no_bracket (preserve_paths : Bool) (outdir : List Char) :
    ∀ (fuel : Nat) (prev : Option Char) (s : List Char), s.length ≤ fuel →
      '[' ∉ s → goCrossF preserve_paths outdir fuel prev s = some s := by
  intro fuel
  induction fuel with
  | zero =>
    intro prev s hs _
    have hnil : s = [] := List.eq_nil_of_length_eq_zero (Nat.le_zero.1 hs)
    subst hnil
    rfl
  | succ f ih =>
    intro prev s hs hnb
    cases s with
    | nil => rfl
    | cons c rest =>
      have hc : c ≠ '[' := fun e => hnb (e ▸ List.mem_cons_self c rest)
      unfold goCrossF
      rw [if_neg (fun hcond => hc hcond.1)]
      rw [ih (some c) rest (by simp at hs; omega)
        (fun hm => hnb (List.mem_cons_of_mem c hm))]
      rfl

theorem countLeading_cons (p : Char → Bool) (c : Char) (l : List Char) :
    countLeading p (c :: l) = if p c = true then countLeading p l + 1 else 0 := rfl

theorem countLeading_replicate_append (p : Char → Bool) (c : Char) (n : Nat)
    (l : List Char) (h : p c = true) :
    countLeading p (List.replicate n c ++ l) = n + countLeading p l := by
  induction n with
  | zero => simp
  | succ m ih =>
    rw [List.replicate_succ, List.cons_append, countLeading_cons, if_pos h, ih]
    omega

theorem countLeading_cons_false (p : Char → Bool) (c : Char) (l : List Char)
    (h : p c = false) : countLeading p (c :: l) = 0 := by
  rw [countLeading_cons, if_neg (by simp [h])]

theorem countLeading_all (p : Char → Bool) (l : List Char)
    (h : ∀ c ∈ l, p c = true) : countLeading p l = l.length := by
  induction l with
  | nil => rfl
  | cons c rest ih =>
    unfold countLeading
    rw [if_pos (h c (List.mem_cons_self c rest)),
      ih (fun x hx => h x (List.mem_cons_of_mem c hx))]
    simp

theorem countLeading_append_stop (p : Char → Bool) (l : List Char) (x : Char)
    (rest : List Char) (hall : ∀ c ∈ l, p c = true) (hx : p x = false) :
    countLeading p (l ++ x :: rest) = l.length := by
  induction l with
  | nil => simpa using countLeading_cons_false p x rest hx
  | cons c cs ih =>
    rw [List.cons_append]
    unfold countLeading
    rw [if_pos (hall c (List.mem_cons_self c cs)),
      ih (fun y hy => hall y (List.mem_cons_of_mem c hy))]
    simp

theorem space_bne_eq (c : Char) (h : pyIsSpace c = true) : (c == '=') = false := by
  unfold pyIsSpace at h
  simp only [Bool.or_eq_true, beq_iff_eq] at h
  rcases h with ((((h | h) | h) | h) | h) | h <;> subst h <;> decide

theorem countLeading_eq_sign_ws (ws : List Char)
    (hws : ∀ c ∈ ws, pyIsSpace c = true) :
    countLeading (fun c => c == '=') ws = 0 := by
  cases ws with
  | nil => rfl
  | cons w rest =>
    exact countLeading_cons_false _ w rest
      (space_bne_eq w (hws w (List.mem_cons_self w rest)))

theorem headingMatch_full (a b : Nat) (name ws : List Char)
    (ha : 1 ≤ a) (hn : name ≠ []) (hne : '=' ∉ name)
    (hws : ∀ c ∈ ws, pyIsSpace c = true) (hb : 1 ≤ b ∨ ws = []) :
    headingMatch (List.replicate a '=' ++ (name ++ (List.replicate b '=' ++ ws))) =
      some (a, name) := by
  have hnall : ∀ c ∈ name, (c == '=') = false := by
    intro c hc
    simp only [beq_eq_false_iff_ne, ne_eq]
    exact fun e => hne (e ▸ hc)
  have hnall2 : ∀ c ∈ name, (c != '=') = true := by
    intro c hc
    simp only [bne_iff_ne, ne_eq]
    exact fun e => hne (e ▸ hc)
  obtain ⟨n0, name1, rfl⟩ : ∃ n0 name1, name = n0 :: name1 := by
    cases name with
    | nil => exact absurd rfl hn
    | cons n0 name1 => exact ⟨n0, name1, rfl⟩
  have e1 : countLeading (fun c => c == '=')
      (List.replicate a '=' ++ ((n0 :: name1) ++ (List.replicate b '=' ++ ws))) = a := by
    rw [countLeading_replicate_append _ _ _ _ (by decide)]
    rw [List.cons_append,
      countLeading_cons_false (fun c => c == '=') n0 _
        (hnall n0 (List.mem_cons_self n0 name1))]
    omega
  have e2 : (List.replicate a '=' ++ ((n0 :: name1) ++ (List.replicate b '=' ++ ws))).drop a =
      (n0 :: name1) ++ (List.replicate b '=' ++ ws) := by
    have h2 := List.drop_left (List.replicate a '=')
      ((n0 :: name1) ++ (List.replicate b '=' ++ ws))
    rwa [List.length_replicate] at h2
  unfold headingMatch
  dsimp only
  rw [e1]
  rw [if_neg (by omega)]
  rw [e2]
  cases b with
  | zero =>
    have hws0 : ws = [] := by
      rcases hb with h1 | h2
      · omega
      · exact h2
    subst hws0
    simp only [List.replicate_zero, List.nil_append, List.append_nil]
    have e3 : countLeading (fun c => c != '=') (n0 :: name1) = (n0 :: name1).length :=
      countLeading_all _ _ hnall2
    rw [e3]
    rw [if_neg (by simp)]
    rw [List.take_length, List.drop_length]
    rfl
  | succ k =>
    have e3 : countLeading (fun c => c != '=')
        ((n0 :: name1) ++ (List.replicate (k + 1) '=' ++ ws)) = (n0 :: name1).length := by
      rw [List.replicate_succ, List.cons_append]
      exact countLeading_append_stop _ _ '=' _ hnall2 (by decide)
    rw [e3]
    rw [if_neg (by simp)]
    have e4 : ((n0 :: name1) ++ (List.replicate (k + 1) '=' ++ ws)).drop
        (n0 :: name1).length = List.replicate (k + 1) '=' ++ ws :=
      List.drop_left _ _
    have e5 : ((n0 :: name1) ++ (List.replicate (k + 1) '=' ++ ws)).take
        (n0 :: name1).length = n0 :: name1 :=
      List.take_left _ _
    rw [e4, e5]
    have e6 : countLeading (fun c => c == '=') (List.replicate (k + 1) '=' ++ ws) =
        k + 1 := by
      rw [countLeading_replicate_append _ _ _ _ (by decide),
        countLeading_eq_sign_ws ws hws]
    rw [e6]
    have e7 : (List.replicate (k + 1) '=' ++ ws).drop (k + 1) = ws := by
      have h2 := List.drop_left (List.replicate (k + 1) '=') ws
      rwa [List.length_replicate] at h2
    rw [e7]
    rw [if_pos (List.all_eq_true.2 hws)]

theorem sectionNameSub_full (a b : Nat) (name ws : List Char)
    (ha : 1 ≤ a) (hn : name ≠ []) (hne : '=' ∉ name)
    (hws : ∀ c ∈ ws, pyIsSpace c = true) (hb : 1 ≤ b ∨ ws = []) :
    sectionNameSub (List.replicate a '=' ++ (name ++ (List.replicate b '=' ++ ws))) =
      List.replicate a '#' ++ (" <span id=\"".data) ++ sanitize_section_name name ++
        ("\" href=\"".data) ++ sanitize_section_name name ++ ("\">".data) ++ name ++
        ("</span>".data) := by
  unfold sectionNameSub
  rw [headingMatch_full a b name ws ha hn hne hws hb]

/-- Claim C8, amended: the heading rewrite applies when the whole comment
is one heading line, a leading run of equals signs, a name, an optional
trailing run of equals signs and trailing whitespace; the heading depth
is the count of leading equals signs, the anchor is the name lower-cased
and stripped with each space turned into a hyphen, and the visible name
text is preserved.  A heading line merely contained in a longer comment
is not rewritten, because the regex is anchored without multiline mode;
see the counterexample.  The name is also assumed free of opening
brackets so that the crossref pass of preprocess leaves the rewritten
heading unchanged. -/
theorem preprocess_heading (preserve_paths : Bool) (outdir : List Char)
    (a b : Nat) (name ws : List Char) (ho : outdir ≠ [])
    (ha : 1 ≤ a) (hn : name ≠ []) (hne : '=' ∉ name) (hnb : '[' ∉ name)
    (hws : ∀ c ∈ ws, pyIsSpace c = true) (hb : 1 ≤ b ∨ ws = []) :
    preprocess preserve_paths outdir
        (List.replicate a '=' ++ (name ++ (List.replicate b '=' ++ ws))) =
      some (List.replicate a '#' ++ (" <span id=\"".data) ++
        sanitize_section_name name ++ ("\" href=\"".data) ++
        sanitize_section_name name ++ ("\">".data) ++ name ++
        ("</span>".data)) := by
  have hnoBr : '[' ∉ (List.replicate a '#' ++ (" <span id=\"".data) ++
      sanitize_section_name name ++ ("\" href=\"".data) ++
      sanitize_section_name name ++ ("\">".data) ++ name ++ ("</span>".data)) := by
    intro hm
    simp only [List.mem_append] at hm
    rcases hm with ((((((h | h) | h) | h) | h) | h) | h) | h
    · exact absurd (List.mem_replicate.1 h).2 (by decide)
    · exact absurd h (by decide)
    · exact sanitize_no_bracket hnb h
    · exact absurd h (by decide)
    · exact sanitize_no_bracket hnb h
    · exact absurd h (by decide)
    · exact hnb h
    · exact absurd h (by decide)
  unfold preprocess
  rw [if_neg ho]
  unfold crossrefSub
  rw [sectionNameSub_full a b name ws ha hn hne hws hb]
  exact goCrossF_no_bracket preserve_paths outdir _ none _ (Nat.le_refl _) hnoBr

/-- Witness for the amended claim C8 at a concrete heading comment. -/
theorem preprocess_heading_witness :
    (("docs".data) ≠ ([] : List Char) ∧ ("Top".data) ≠ ([] : List Char) ∧
      '=' ∉ ("Top".data) ∧ '[' ∉ ("Top".data) ∧
      (∀ c ∈ ['\n'], pyIsSpace c = true)) ∧
    preprocess true ("docs".data)
        (List.replicate 2 '=' ++ (("Top".data) ++ (List.replicate 2 '=' ++ ['\n']))) =
      some (List.replicate 2 '#' ++ (" <span id=\"".data) ++
        sanitize_section_name ("Top".data) ++ ("\" href=\"".data) ++
        sanitize_section_name ("Top".data) ++ ("\">".data) ++ ("Top".data) ++
        ("</span>".data)) :=
  ⟨⟨by decide, by decide, by decide, by decide, by decide⟩,
    preprocess_heading true ("docs".data) 2 2 ("Top".data) ['\n'] (by decide)
      (by decide) (by decide) (by decide) (by decide) (by decide)
      (Or.inl (by decide))⟩

theorem findBody_length : ∀ (s body rest : List Char),
    findBody s = some (body, rest) → rest.length + 3 ≤ s.length := by
  intro s
  induction s with
  | nil =>
    intro body rest h
    exact absurd h (by simp [findBody])
  | cons c r ih =>
    intro body rest h
    unfold findBody at h
    split at h
    · exact absurd h (by simp)
    · split at h
      · simp only [Option.some_inj, Prod.mk.injEq] at h
        obtain ⟨hb, hr⟩ := h
        subst hr
        simp
      · cases hfb : findBody r with
        | none =>
          rw [hfb] at h
          exact absurd h (by simp [Option.map_none'])
        | some p =>
          rw [hfb] at h
          simp only [Option.map_some', Option.some_inj, Prod.mk.injEq] at h
          obtain ⟨hb, hr⟩ := h
          have h2 := ih p.1 p.2 (by rw [hfb])
          subst hr
          simp only [List.length_cons]
          omega

theorem goCrossF_stable (preserve_paths : Bool) (outdir : List Char) :
    ∀ (f1 f2 : Nat) (prev : Option Char) (s : List Char),
      s.length ≤ f1 → s.length ≤ f2 →
      goCrossF preserve_paths outdir f1 prev s =
        goCrossF preserve_paths outdir f2 prev s := by
  intro f1
  induction f1 with
  | zero =>
    intro f2 prev s h1 h2
    have hnil : s = [] := List.eq_nil_of_length_eq_zero (Nat.le_zero.1 h1)
    subst hnil
    cases f2 <;> rfl
  | succ f ih =>
    intro f2 prev s h1 h2
    cases s with
    | nil => cases f2 <;> rfl
    | cons c rest =>
      cases f2 with
      | zero => simp at h2
      | succ g =>
        unfold goCrossF
        by_cases hcond : (c = '[' ∧ rest.headD ' ' = '[' ∧ prev ≠ some backtickChar)
        · rw [if_pos hcond, if_pos hcond]
          cases hfb : findBody (rest.drop 1) with
          | none =>
            rw [ih g (some c) rest (by simp at h1; omega) (by simp at h2; omega)]
          | some p =>
            obtain ⟨body, rest1⟩ := p
            dsimp only
            cases hrc : replaceCrossref preserve_paths outdir body with
            | none => rfl
            | some repl =>
              dsimp only
              have hl := findBody_length (rest.drop 1) body rest1 hfb
              rw [ih g (some ']') rest1 (by simp at h1 hl ⊢; omega)
                (by simp at h2 hl ⊢; omega)]
        · rw [if_neg hcond, if_neg hcond,
            ih g (some c) rest (by simp at h1; omega) (by simp at h2; omega)]

/-- The character just before the scan position after copying a prefix. -/
def prevAfter (prev : Option Char) (pre : List Char) : Option Char :=
  match pre.getLast? with
  | some c => some c
  | none => prev

theorem goCrossF_cons_plain (preserve_paths : Bool) (outdir : List Char)
    (f : Nat) (prev : Option Char) (c : Char) (rest : List Char)
    (hc : ¬(c = '[' ∧ rest.headD ' ' = '[' ∧ prev ≠ some backtickChar)) :
    goCrossF preserve_paths outdir (f + 1) prev (c :: rest) =
      (goCrossF preserve_paths outdir f (some c) rest).map (fun t => c :: t) := by
  conv_lhs => unfold goCrossF
  rw [if_neg hc]

theorem goCrossF_copy (preserve_paths : Bool) (outdir : List Char) :
    ∀ (pre : List Char) (prev : Option Char) (s : List Char) (fuel : Nat),
      (pre ++ s).length ≤ fuel → '[' ∉ pre →
      goCrossF preserve_paths outdir fuel prev (pre ++ s) =
        (goCrossF preserve_paths outdir (fuel - pre.length)
          (prevAfter prev pre) s).map (fun t => pre ++ t) := by
  intro pre
  induction pre with
  | nil =>
    intro prev s fuel h1 h2
    simp [prevAfter]
  | cons c pre1 ih =>
    intro prev s fuel h1 h2
    have hc : c ≠ '[' := fun e => h2 (e ▸ List.mem_cons_self c pre1)
    cases fuel with
    | zero => simp at h1
    | succ f =>
      rw [List.cons_append,
        goCrossF_cons_plain preserve_paths outdir f prev c (pre1 ++ s)
          (fun hcond => hc hcond.1),
        ih (some c) s f (by simp at h1 ⊢; omega)
          (fun hm => h2 (List.mem_cons_of_mem c hm))]
      have hpa : prevAfter (some c) pre1 = prevAfter prev (c :: pre1) := by
        cases pre1 with
        | nil => simp [prevAfter]
        | cons d rest =>
          unfold prevAfter
          rw [List.getLast?_cons_cons]
          cases hgl : (d :: rest).getLast? with
          | none => exact absurd hgl (by simp)
          | some x => rfl
      have hfl : f - pre1.length = f + 1 - (c :: pre1).length := by
        simp
      rw [hpa, ← hfl, Option.map_map]
      rfl

theorem takeWhile_append_stop (p : Char → Bool) (xs : List Char) (d : Char)
    (w : List Char) (hall : ∀ c ∈ xs, p c = true) (hd : p d = false) :
    List.takeWhile p (xs ++ d :: w) = xs := by
  induction xs with
  | nil => simp [List.takeWhile_cons, hd]
  | cons c cs ih =>
    rw [List.cons_append, List.takeWhile_cons,
      if_pos (hall c (List.mem_cons_self c cs)),
      ih (fun y hy => hall y (List.mem_cons_of_mem c hy))]

theorem basename_slash_append (x y : List Char) (hy : ∀ c ∈ y, c ≠ '/') :
    basename (x ++ '/' :: y) = y := by
  unfold basename
  have e : (x ++ '/' :: y).reverse = y.reverse ++ '/' :: x.reverse := by
    rw [List.reverse_append, List.reverse_cons]
    simp
  rw [e]
  have hally : ∀ c ∈ y.reverse, (c != '/') = true := by
    intro c hc
    simp only [bne_iff_ne, ne_eq]
    exact hy c (List.mem_reverse.1 hc)
  rw [takeWhile_append_stop _ _ '/' _ hally (by decide)]
  exact List.reverse_reverse y

theorem destination_testing_basename (preserve_paths : Bool) (outdir : List Char)
    (ho : outdir ≠ []) :
    ∃ d, destination ("testing.py".data) preserve_paths outdir = some d ∧
      basename d = ("testing.html".data) := by
  have hn1 : (if preserve_paths = true then
      pyJoin (pySplitPath ("testing.py".data)).1 (stripExt (pySplitPath ("testing.py".data)).2)
    else stripExt (pySplitPath ("testing.py".data)).2) = ("testing".data) := by
    cases preserve_paths <;> rfl
  have hns : ¬(listStartsWith ("/".data) (("testing".data) ++ (".html".data)) = true) := by
    decide
  by_cases hE : listEndsWith ("/".data) outdir = true
  · have hj : pyJoin outdir (("testing".data) ++ (".html".data)) =
        outdir ++ (("testing".data) ++ (".html".data)) := by
      unfold pyJoin
      rw [if_neg hns, if_pos (Or.inr hE)]
    have hdest : destination ("testing.py".data) preserve_paths outdir =
        some (outdir ++ (("testing".data) ++ (".html".data))) := by
      unfold destination
      rw [if_neg ho]
      dsimp only
      rw [hn1, hj, if_pos (listStartsWith_append outdir _)]
    refine ⟨_, hdest, ?_⟩
    unfold listEndsWith at hE
    cases hr : outdir.reverse with
    | nil =>
      rw [hr] at hE
      exact absurd hE (by decide)
    | cons e t =>
      rw [hr] at hE
      simp only [listStartsWith, Bool.and_eq_true, beq_iff_eq] at hE
      have he : e = '/' := by simpa using hE.1.symm
      subst he
      have ho2 : outdir = t.reverse ++ ['/'] := by
        rw [← List.reverse_reverse outdir, hr, List.reverse_cons]
      rw [ho2]
      have e2 : (t.reverse ++ ['/']) ++ (("testing".data) ++ (".html".data)) =
          t.reverse ++ '/' :: (("testing".data) ++ (".html".data)) := by
        simp
      rw [e2, basename_slash_append t.reverse _ (by decide)]
      decide
  · have hj : pyJoin outdir (("testing".data) ++ (".html".data)) =
        outdir ++ '/' :: (("testing".data) ++ (".html".data)) := by
      unfold pyJoin
      rw [if_neg hns, if_neg (by
        intro hor
        rcases hor with h1 | h2
        · exact ho h1
        · exact hE h2)]
    have hdest : destination ("testing.py".data) preserve_paths outdir =
        some (outdir ++ '/' :: (("testing".data) ++ (".html".data))) := by
      unfold destination
      rw [if_neg ho]
      dsimp only
      rw [hn1, hj, if_pos (listStartsWith_append outdir _)]
    refine ⟨_, hdest, ?_⟩
    rw [basename_slash_append outdir _ (by decide)]
    decide

theorem replaceCrossref_token (preserve_paths : Bool) (outdir : List Char)
    (ho : outdir ≠ []) :
    replaceCrossref preserve_paths outdir ("testing.py#link-target".data) =
      some ((" [testing.py](testing.html#link-target)".data)) := by
  obtain ⟨d, hd, hb⟩ := destination_testing_basename preserve_paths outdir ho
  unfold replaceCrossref
  rw [if_pos (by decide), if_pos (by decide)]
  dsimp only
  have ht : (("testing.py#link-target".data).takeWhile (fun c => c != '#')) =
      ("testing.py".data) := by decide
  have hdp : ((("testing.py#link-target".data).dropWhile (fun c => c != '#')).drop 1) =
      ("link-target".data) := by decide
  rw [ht, hdp, hd]
  simp only [Option.map_some']
  congr 1
  rw [hb]
  decide

theorem goCrossF_token (preserve_paths : Bool) (outdir : List Char) (ho : outdir ≠ []) :
    ∀ (fuel : Nat) (prev : Option Char) (post : List Char),
      prev ≠ some backtickChar →
      ((("[[testing.py#link-target]]".data) ++ post)).length ≤ fuel →
      goCrossF preserve_paths outdir fuel prev
          (("[[testing.py#link-target]]".data) ++ post) =
        (goCrossF preserve_paths outdir post.length (some ']') post).map
          (fun t => (" [testing.py](testing.html#link-target)".data) ++ t) := by
  intro fuel prev post hprev hlen
  cases fuel with
  | zero => simp at hlen
  | succ f =>
    have hshape : (("[[testing.py#link-target]]".data) ++ post) =
        '[' :: '[' :: (("testing.py#link-target]]".data) ++ post) := rfl
    rw [hshape]
    conv_lhs => unfold goCrossF
    rw [if_pos ⟨rfl, rfl, hprev⟩]
    rw [show List.drop 1 ('[' :: (("testing.py#link-target]]".data) ++ post)) =
      (("testing.py#link-target]]".data) ++ post) from rfl]
    have hfb : findBody (("testing.py#link-target]]".data) ++ post) =
        some (("testing.py#link-target".data), post) := rfl
    rw [hfb]
    dsimp only
    rw [replaceCrossref_token preserve_paths outdir ho]
    dsimp only
    rw [goCrossF_stable preserve_paths outdir f post.length (some ']') post
      (by simp at hlen; omega) (Nat.le_refl _)]

/-- Claim C9, amended: in the crossref substitution of preprocess, a
comment of the form prefix, token, suffix, where the token is the
reference to testing.py with the link-target anchor, the prefix contains
no opening bracket and does not end with a backtick, and the output
directory is non-empty, rewrites the token into a markdown link whose
visible text is testing.py and whose target is testing.html followed by
the anchor; the prefix is copied unchanged and the scan continues on the
suffix.  When an earlier opening bracket precedes the token, the token
can instead be absorbed into a larger match, so the restriction on the
prefix is necessary; see the counterexample. -/
theorem crossrefSub_token (preserve_paths : Bool) (outdir : List Char)
    (pre post : List Char) (ho : outdir ≠ []) (hpre : '[' ∉ pre)
    (hlast : pre.getLast? ≠ some backtickChar) :
    crossrefSub preserve_paths outdir
        (pre ++ ((("[[testing.py#link-target]]".data) ++ post))) =
      (goCrossF preserve_paths outdir post.length (some ']') post).map
        (fun t => pre ++ ((" [testing.py](testing.html#link-target)".data) ++ t)) := by
  unfold crossrefSub
  rw [goCrossF_copy preserve_paths outdir pre none _ _ (Nat.le_refl _) hpre]
  have hprev : prevAfter none pre ≠ some backtickChar := by
    unfold prevAfter
    cases hgl : pre.getLast? with
    | none => simp
    | some c =>
      rw [hgl] at hlast
      simpa using hlast
  rw [goCrossF_token preserve_paths outdir ho _ (prevAfter none pre) post hprev
    (by simp)]
  rw [Option.map_map]
  rfl

/-- Witness for the amended claim C9 at a concrete comment. -/
theorem crossrefSub_token_witness :
    (("docs".data) ≠ ([] : List Char) ∧ '[' ∉ ("see ".data) ∧
      ("see ".data).getLast? ≠ some backtickChar) ∧
    crossrefSub true ("docs".data)
        (("see ".data) ++ ((("[[testing.py#link-target]]".data) ++ (" end".data)))) =
      (goCrossF true ("docs".data) (" end".data).length (some ']') (" end".data)).map
        (fun t => ("see ".data) ++
          ((" [testing.py](testing.html#link-target)".data) ++ t)) :=
  ⟨⟨by decide, by decide, by decide⟩,
    crossrefSub_token true ("docs".data) ("see ".data) (" end".data)
      (by decide) (by decide) (by decide)⟩

/-- Counterexample to claim C9 as stated: a comment that contains the
token, not preceded by any backtick, where an earlier double opening
bracket absorbs the token into a larger reference, so no link with
target testing.html and the link-target anchor is produced. -/
theorem preprocess_crossref_counterexample :
    containsSeq ("[[testing.py#link-target]]".data)
        ("[[x[[testing.py#link-target]]".data) = true ∧
    ¬ backtickChar ∈ ("[[x[[testing.py#link-target]]".data) ∧
    preprocess true ("docs".data) ("[[x[[testing.py#link-target]]".data) =
      some ((" [x[[testing.py](x[[testing.html#link-target)".data)) ∧
    containsSeq ("(testing.html#link-target)".data)
      (" [x[[testing.py](x[[testing.html#link-target)".data) = false := by
  refine ⟨by decide, by decide, by decide, by decide⟩
